import Mathlib

/-!
# Verification of the artisan-bakery product search engine

A shallow embedding of the scoring / matching / filtering pipeline of
`src/app/api/products/route.ts`, together with proofs and refutations of the
specification's claims about it.

JavaScript strings are modelled as `List Char` (one element per UTF-16 code
unit; none of the verified properties depend on surrogate-pair details).
JavaScript numbers that carry fractional values (prices, ratings, protein
content) are modelled as `ℚ`; all relevance-score arithmetic is on small
integers, modelled as `Nat`.
-/

namespace Bakery

/-- A JavaScript string: a sequence of code units. -/
abbrev Str := List Char

/-- The characters removed by `String.prototype.trim` (ECMAScript WhiteSpace
plus LineTerminator), which is also the character class of `\s` in the
regular expressions the route uses. -/
def isJsSpace (c : Char) : Bool :=
  c = ' ' ∨ c = '\t' ∨ c = '\n' ∨ c.toNat = 0x0b ∨ c.toNat = 0x0c ∨ c = '\r' ∨
  c.toNat = 0xa0 ∨ c.toNat = 0x1680 ∨ (0x2000 ≤ c.toNat ∧ c.toNat ≤ 0x200a) ∨
  c.toNat = 0x2028 ∨ c.toNat = 0x2029 ∨ c.toNat = 0x202f ∨ c.toNat = 0x205f ∨
  c.toNat = 0x3000 ∨ c.toNat = 0xfeff

/-- Remove leading JS whitespace (the front half of `trim`). -/
def trimLeft (s : Str) : Str := s.dropWhile isJsSpace

/-- Remove trailing JS whitespace (the back half of `trim`). -/
def trimRight : Str → Str
  | [] => []
  | c :: s =>
    match trimRight s with
    | [] => if isJsSpace c then [] else [c]
    | t => c :: t

/-- `String.prototype.trim`: strip leading and trailing whitespace. -/
def trim (s : Str) : Str := trimRight (trimLeft s)

/-- The combining diacritical marks removed by
`.replace(/[̀-ͯ]/g, '')` in `normalizeString`. -/
def isCombiningMark (c : Char) : Bool := 0x300 ≤ c.toNat ∧ c.toNat ≤ 0x36f

/-- The `.replace(/[̀-ͯ]/g, '')` step of `normalizeString`. -/
def stripMarks (s : Str) : Str := s.filter (fun c => !(isCombiningMark c))

/-- The two Unicode-table-driven string operations `normalizeString` uses:
`String.prototype.toLowerCase` and `String.prototype.normalize('NFD')`.
Their full Unicode definitions are enormous tables; the development is
parametric in them, and each theorem that needs a fact about them (for
instance that lowercasing an already-lowercased string is the identity)
takes that fact as an explicit hypothesis that the real Unicode functions
satisfy. -/
structure UnicodeOps where
  lower : Str → Str
  nfd : Str → Str

/-- A trivial instantiation of the Unicode operations (the identity on both),
used to evaluate the pipeline on concrete ASCII inputs, where real
`toLowerCase`/NFD of an already-lowercase, already-composed string is the
identity. -/
def idUnicode : UnicodeOps where
  lower := fun s => s
  nfd := fun s => s

/-- `normalizeString` from the route:
`str.toLowerCase().normalize('NFD').replace(/[̀-ͯ]/g, '').trim()`. -/
def normalizeString (U : UnicodeOps) (s : Str) : Str :=
  trim (stripMarks (U.nfd (U.lower s)))

/-! ## Levenshtein distance, as the route implements it

`levenshteinDistance` builds each row of the DP table with
`min(previousRow[j] + 1, previousRow[j - 1] + cost, i + 1)`: the third
argument — commented "insertion (current row index + 1)" in the source — is
the constant `i + 1` rather than the freshly computed left neighbour
`currentRow[j - 1] + 1` of the classic recurrence. -/

/-- One row of the route's DP loop: the body of the `reduce` in
`levenshteinDistance`, for row index `i` (1-based). -/
def levRow (str1 str2 : Str) (previousRow : List Nat) (i : Nat) : List Nat :=
  (List.range (str2.length + 1)).map (fun j =>
    if j = 0 then i
    else
      let cost : Nat := if str1.getD (i - 1) ' ' = str2.getD (j - 1) ' ' then 0 else 1
      min (min (previousRow.getD j 0 + 1) (previousRow.getD (j - 1) 0 + cost)) (i + 1))

/-- `levenshteinDistance(str1, str2)` exactly as the route computes it. -/
def levenshteinDistance (str1 str2 : Str) : Nat :=
  let m := str1.length
  let n := str2.length
  if m = 0 then n
  else if n = 0 then m
  else
    let initialRow := List.range (n + 1)
    let finalRow := ((List.range m).map (· + 1)).foldl (levRow str1 str2) initialRow
    finalRow.getD n 0

/-- Row `i + 1` of the classic Levenshtein DP table as a function of column
`j`, given row `i` as the function `f` (structural helper for `levTable`). -/
def levTableRow (a b : Str) (i : Nat) (f : Nat → Nat) : Nat → Nat
  | 0 => i + 1
  | j + 1 =>
    let cost : Nat := if a.getD i ' ' = b.getD j ' ' then 0 else 1
    min (min (f (j + 1) + 1) (levTableRow a b i f j + 1)) (f j + cost)

/-- The classic Levenshtein DP table for `a` and `b`: `levTable a b i j` is
the edit distance between the first `i` characters of `a` and the first `j`
characters of `b`, with insertion, deletion and substitution each of cost 1.
`levTable_zero`/`levTable_succ_zero`/`levTable_succ_succ` below show it
satisfies exactly the standard recurrence the specification describes. -/
def levTable (a b : Str) : Nat → Nat → Nat
  | 0 => fun j => j
  | i + 1 => levTableRow a b i (levTable a b i)

/-- The classic Levenshtein edit distance between `a` and `b`. -/
def levClassic (a b : Str) : Nat := levTable a b a.length b.length

/-- `fuzzyMatch(str1, str2, maxDistance)` from the route: normalizes both
inputs and compares the route's distance against the threshold. -/
def fuzzyMatch (U : UnicodeOps) (str1 str2 : Str) (maxDistance : Nat) : Bool :=
  levenshteinDistance (normalizeString U str1) (normalizeString U str2) ≤ maxDistance

/-! ## Match locator -/

/-- Does `pat` occur in `text` at position `p`? -/
def occursAt (text pat : Str) (p : Nat) : Bool :=
  (text.drop p).take pat.length == pat

/-- `String.prototype.indexOf(pat, start)` (JS returns `-1` for "not found",
modelled as `none`). For an empty `pat` JS returns `min start text.length` —
it never reports "not found" — which is what makes the route's
`findMatches` diverge on blank queries. -/
def jsIndexOf (text pat : Str) (start : Nat) : Option Nat :=
  if pat.isEmpty then some (min start text.length)
  else (List.range (text.length + 1)).find? (fun p => start ≤ p && occursAt text pat p)

/-- The recursive helper `findAllMatches` of `findMatches`, with explicit
fuel to account for its possible non-termination: `none` means the JS
recursion has not finished within `fuel` calls (for a blank query it never
finishes, see `findMatches_blank_query_diverges`). -/
def findAllMatchesF (text pat : Str) : Nat → Nat → List (Nat × Nat) → Option (List (Nat × Nat))
  | 0, _, _ => none
  | fuel + 1, startIndex, accumulator =>
    match jsIndexOf text pat startIndex with
    | none => some accumulator
    | some position =>
      findAllMatchesF text pat fuel (position + 1)
        (accumulator ++ [(position, position + pat.length)])

/-- `findMatches(text, query)` from the route, with fuel. -/
def findMatchesF (U : UnicodeOps) (text query : Str) (fuel : Nat) :
    Option (List (Nat × Nat)) :=
  findAllMatchesF (normalizeString U text) (normalizeString U query) fuel 0 []

/-! ## The product data model (`src/types/product.ts`)

`BakeryProduct` is a discriminated union on `category`; the embedding keeps
the fields the route reads (name, brand, price, description, inStock,
rating, tags) and the category-specific payload the route reads behind its
`isFlourProduct` / `isOvenProduct` guards (`proteinContent` and `organic`
for flour, `features` for ovens). Fields the route never reads (id,
imageUrl, flourType, weight, origin, banneton and oven geometry, …) are
omitted: they cannot influence any verified function. -/

inductive ProductCategory where
  | flour
  | banneton
  | oven
deriving DecidableEq

/-- The category discriminant as the string stored in `product.category`. -/
def categoryName : ProductCategory → Str
  | .flour => ['f', 'l', 'o', 'u', 'r']
  | .banneton => ['b', 'a', 'n', 'n', 'e', 't', 'o', 'n']
  | .oven => ['o', 'v', 'e', 'n']

/-- The category-specific payload of the discriminated union. -/
inductive CategoryFields where
  | flour (proteinContent : ℚ) (organic : Bool)
  | banneton
  | oven (features : List Str)
deriving DecidableEq

structure BakeryProduct where
  name : Str
  brand : Str
  price : ℚ
  description : Str
  inStock : Bool
  rating : ℚ
  tags : List Str
  extra : CategoryFields
deriving DecidableEq

/-- `product.category`, determined by the variant of the union. -/
def BakeryProduct.category (p : BakeryProduct) : ProductCategory :=
  match p.extra with
  | .flour _ _ => .flour
  | .banneton => .banneton
  | .oven _ => .oven

/-- `isFlourProduct(product)`: `product.category === 'flour'`. -/
def isFlourProduct (p : BakeryProduct) : Bool :=
  match p.extra with
  | .flour _ _ => true
  | _ => false

/-- `isOvenProduct(product)`: `product.category === 'oven'`. -/
def isOvenProduct (p : BakeryProduct) : Bool :=
  match p.extra with
  | .oven _ => true
  | _ => false

/-! ## Relevance scorer (`calculateRelevanceScore`) -/

/-- `String.prototype.includes(sub)` (an empty `sub` is always contained,
as in JS). -/
def strContains (s sub : Str) : Bool := (jsIndexOf s sub 0).isSome

/-- `s.startsWith(t)` for JS strings. -/
def strStartsWith (s t : Str) : Bool := s.take t.length == t

/-- ASCII lowercasing of one character, the canonicalization the
case-insensitive regex `/(\d+)%?\s*protein/i` applies to each literal
letter (the `i` flag of a non-Unicode-mode regex maps only ASCII case
pairs onto each other for ASCII pattern letters). -/
def asciiLower (c : Char) : Char :=
  if 'A' ≤ c ∧ c ≤ 'Z' then Char.ofNat (c.toNat + 32) else c

/-- After the digit group: match `%?\s*protein` (case-insensitively).
The regex engine's backtracking is deterministic here: `%` can only be
consumed if present (skipping it leaves a `%` facing `p`), and `\s*` must
consume the whole whitespace run (stopping early leaves whitespace facing
`p`). -/
def proteinTail (rest : Str) : Bool :=
  let rest1 := match rest with
    | '%' :: r => r
    | r => r
  let rest2 := rest1.dropWhile isJsSpace
  (rest2.take 7).map asciiLower == ['p', 'r', 'o', 't', 'e', 'i', 'n']

/-- `parseInt` of a non-empty all-digit group. -/
def digitsVal (ds : Str) : Nat :=
  ds.foldl (fun acc c => acc * 10 + (c.toNat - ('0').toNat)) 0

/-- `query.match(/(\d+)%?\s*protein/i)`, returning the parsed integer of
the first (leftmost) match's digit group. At a digit position the greedy
`\d+` must take the whole digit run: giving digits back leaves a digit
facing `%`/whitespace/`p`, which always fails, so only the full run is
tried before the scan advances. -/
def proteinSearch : Str → Option Nat
  | [] => none
  | c :: rest =>
    if c.isDigit then
      if proteinTail ((c :: rest).dropWhile Char.isDigit) then
        some (digitsVal ((c :: rest).takeWhile Char.isDigit))
      else proteinSearch rest
    else proteinSearch rest

/-- The name component of the score (exact 100 / starts-with 80 /
contains 60 / fuzzy 10 / 0). As in the source, the already-normalized name
and query are handed to `fuzzyMatch`, which normalizes them again. -/
def nameScore (U : UnicodeOps) (normalizedName normalizedQuery : Str) : Nat :=
  if normalizedName == normalizedQuery then 100
  else if strStartsWith normalizedName normalizedQuery then 80
  else if strContains normalizedName normalizedQuery then 60
  else if fuzzyMatch U normalizedName normalizedQuery 2 then 10
  else 0

/-- The brand component (exact 50 / contains 30 / 0). -/
def brandScore (normalizedBrand normalizedQuery : Str) : Nat :=
  if normalizedBrand == normalizedQuery then 50
  else if strContains normalizedBrand normalizedQuery then 30
  else 0

/-- The description component (contains 20 / 0). -/
def descScore (normalizedDescription normalizedQuery : Str) : Nat :=
  if strContains normalizedDescription normalizedQuery then 20 else 0

/-- The tag component: `tags.filter(...).reduce((acc) => acc + 40, 0)`. -/
def tagScore (U : UnicodeOps) (tags : List Str) (normalizedQuery : Str) : Nat :=
  (tags.filter (fun tag => strContains (normalizeString U tag) normalizedQuery)).foldl
    (fun acc _ => acc + 40) 0

/-- The flour category bonus: protein-content match against the raw query. -/
def flourScore (p : BakeryProduct) (query : Str) : Nat :=
  match p.extra with
  | .flour proteinContent _ =>
    match proteinSearch query with
    | none => 0
    | some queryProtein => if |proteinContent - (queryProtein : ℚ)| ≤ 1 then 10 else 0
  | _ => 0

/-- The oven category bonus:
`features.filter(f => normalizedQuery.includes(normalize(f))).reduce((acc) => acc + 15, 0)`. -/
def ovenScore (U : UnicodeOps) (p : BakeryProduct) (normalizedQuery : Str) : Nat :=
  match p.extra with
  | .oven features =>
    (features.filter (fun feature =>
      strContains normalizedQuery (normalizeString U feature))).foldl
      (fun acc _ => acc + 15) 0
  | _ => 0

/-- The threshold `4.5` of the popularity bonus, written as an explicit
reduced fraction (`9/2`) so that the kernel can evaluate comparisons
against it; `ratFourPointFive_eq` proves it equals the literal `4.5`. -/
def ratFourPointFive : ℚ := ⟨9, 2, by norm_num, by norm_num⟩

/-- The popularity bonus: `product.rating >= 4.5 ? 5 : 0`. -/
def popularityScore (p : BakeryProduct) : Nat :=
  if ratFourPointFive ≤ p.rating then 5 else 0

/-- `calculateRelevanceScore(product, query)` from the route. -/
def calculateRelevanceScore (U : UnicodeOps) (product : BakeryProduct) (query : Str) : Nat :=
  if trim query == [] then 0
  else
    let normalizedQuery := normalizeString U query
    [nameScore U (normalizeString U product.name) normalizedQuery,
     brandScore (normalizeString U product.brand) normalizedQuery,
     descScore (normalizeString U product.description) normalizedQuery,
     tagScore U product.tags normalizedQuery,
     flourScore product query,
     ovenScore U product normalizedQuery,
     popularityScore product].foldl (fun total component => total + component) 0

/-! ## Filter engine (`applyFilters`) and query pipeline (`GET`) -/

inductive LogicMode where
  | AND
  | OR
deriving DecidableEq

/-- The parsed URL parameters the route builds in `GET`. -/
structure ParsedSearchParams where
  q : Str
  categories : List Str
  minPrice : ℚ
  maxPrice : ℚ
  minRating : ℚ
  inStock : Option Bool
  organic : Option Bool
  logicMode : LogicMode
deriving DecidableEq

/-- The stock filter step: pass unless `params.inStock` is defined and
differs from the product's flag. -/
def stockPass (inStock : Option Bool) (productStock : Bool) : Bool :=
  match inStock with
  | none => true
  | some b => productStock == b

/-- The organic filter step: pass when the filter is unset; when set, the
product must be a flour product whose organic flag equals the filter
(non-flour products are rejected outright). -/
def organicPass (organic : Option Bool) (extra : CategoryFields) : Bool :=
  match organic with
  | none => true
  | some b =>
    match extra with
    | .flour _ org => org == b
    | _ => false

/-- The predicate of `applyFilters` (the callback of `products.filter`),
with the source's early-return chain written as nested conditionals.
`categorySet.has` is membership in `params.categories` (the `Set` built
from it has the same members). -/
def filterPred (params : ParsedSearchParams) (product : BakeryProduct) : Bool :=
  if 0 < params.categories.length ∧ categoryName product.category ∉ params.categories then
    false
  else if product.price < params.minPrice ∨ product.price > params.maxPrice then false
  else if product.rating < params.minRating then false
  else if stockPass params.inStock product.inStock = false then false
  else organicPass params.organic product.extra

/-- `applyFilters(products, params)` from the route. -/
def applyFilters (products : List BakeryProduct) (params : ParsedSearchParams) :
    List BakeryProduct :=
  products.filter (filterPred params)

/-- A scored result of the pipeline. The `matches` field of the source's
`SearchResult` is dropped: the pipeline's final `.map((r) => r.product)`
discards it, so it never influences the output list (`findMatches` itself
is verified separately). -/
structure SearchResult where
  product : BakeryProduct
  score : Nat
deriving DecidableEq

/-- Insert into a list already sorted by strictly descending score, after
every element of not-smaller score: together with `sortByScoreDesc` this
realizes the ECMAScript stable sort with comparator
`(a, b) => b.score - a.score`. -/
def insertByScoreDesc (a : SearchResult) : List SearchResult → List SearchResult
  | [] => [a]
  | b :: l => if a.score < b.score then b :: insertByScoreDesc a l else a :: b :: l

/-- The stable descending-by-score sort of the pipeline. -/
def sortByScoreDesc (l : List SearchResult) : List SearchResult :=
  l.foldr insertByScoreDesc []

/-- Stable insertion for the empty-query branch's rating sort. -/
def insertByRatingDesc (a : BakeryProduct) : List BakeryProduct → List BakeryProduct
  | [] => [a]
  | b :: l => if a.rating < b.rating then b :: insertByRatingDesc a l else a :: b :: l

/-- The stable descending-by-rating sort (`.sort((a, b) => b.rating - a.rating)`). -/
def sortByRatingDesc (l : List BakeryProduct) : List BakeryProduct :=
  l.foldr insertByRatingDesc []

/-- The `GET` handler's core pipeline (its `finalResults`), everything after
parameter parsing and before serialization: filter, then — for a non-blank
query — score, threshold, stable-sort by score and project; for a blank
query, stable-sort the filtered set by rating. -/
def searchResults (U : UnicodeOps) (catalog : List BakeryProduct)
    (params : ParsedSearchParams) : List BakeryProduct :=
  let filteredProducts := applyFilters catalog params
  if trim params.q ≠ [] then
    (sortByScoreDesc
      ((filteredProducts.map (fun product =>
        SearchResult.mk product (calculateRelevanceScore U product params.q))).filter
        (fun result => 0 < result.score))).map (fun r => r.product)
  else
    sortByRatingDesc filteredProducts

/-! ## Concrete fixtures, used to evaluate the verified pipeline -/

/-- A banneton product whose name matches the query `"bread"` exactly. -/
def sampleBread : BakeryProduct :=
  ⟨("bread").toList, ("acme").toList, 10, ("plain").toList, true, 4, [], .banneton⟩

/-- A banneton product containing `"bread"` in its name and tags, with a
popularity-bonus rating. -/
def sampleLoaf : BakeryProduct :=
  ⟨("sourdough bread").toList, ("oven co").toList, 20, [], true, ratFourPointFive,
    [("bread").toList], .banneton⟩

/-- The protein content `11.5` of the sample flour, as an explicit reduced
fraction (`23/2`, see `proteinSample_eq`). -/
def proteinSample : ℚ := ⟨23, 2, by norm_num, by norm_num⟩

/-- A flour product with protein content 11.5. -/
def sampleFlour : BakeryProduct :=
  ⟨("strong white").toList, ("mill").toList, 15, [], true, 4, [],
    .flour proteinSample true⟩

def sampleCatalog : List BakeryProduct := [sampleBread, sampleLoaf, sampleFlour]

/-- Query `"bread"`, no filters, AND mode. -/
def sampleParams : ParsedSearchParams :=
  ⟨("bread").toList, [], 0, 5000, 0, none, none, .AND⟩

/-- The same parameters with the other logic mode. -/
def sampleParamsOR : ParsedSearchParams :=
  ⟨("bread").toList, [], 0, 5000, 0, none, none, .OR⟩

/-! ## The fraction constants equal the source's literals -/

theorem ratFourPointFive_eq : ratFourPointFive = (4.5 : ℚ) := by
  rw [ratFourPointFive, Rat.mk'_eq_divInt]
  norm_num [Rat.divInt_eq_div]

theorem proteinSample_eq : proteinSample = (11.5 : ℚ) := by
  rw [proteinSample, Rat.mk'_eq_divInt]
  norm_num [Rat.divInt_eq_div]

/-! ## The classic table satisfies the standard recurrence -/

theorem levTable_zero (a b : Str) (j : Nat) : levTable a b 0 j = j := rfl

theorem levTable_succ_zero (a b : Str) (i : Nat) : levTable a b (i + 1) 0 = i + 1 := rfl

theorem levTable_succ_succ (a b : Str) (i j : Nat) :
    levTable a b (i + 1) (j + 1) =
      min (min (levTable a b i (j + 1) + 1) (levTable a b (i + 1) j + 1))
        (levTable a b i j + if a.getD i ' ' = b.getD j ' ' then 0 else 1) := rfl

/-! ## C1, C2: the Levenshtein implementation diverges from the classic
distance

The route's inner `Math.min` uses the constant `i + 1` ("insertion (current
row index + 1)") where the classic recurrence needs the freshly computed
left neighbour `currentRow[j - 1] + 1`. On `str1 = "a"`, `str2 = "ab"` the
classic distance is 1 (insert `'b'`) but the route computes 2; swapping the
arguments gives 1, so the function is not symmetric either. -/

/-- C1: `levenshteinDistance` does not equal the classic Levenshtein edit
distance: at `("a", "ab")` the code returns 2 while the classic
dynamic-programming table gives 1. -/
theorem levenshteinDistance_insertion_bug :
    levenshteinDistance ['a'] ['a', 'b'] = 2 ∧ levClassic ['a'] ['a', 'b'] = 1 := by
  decide

/-- C2: `levenshteinDistance` is not symmetric: `distance("a", "ab") = 2`
but `distance("ab", "a") = 1`. -/
theorem levenshteinDistance_not_symmetric :
    levenshteinDistance ['a'] ['a', 'b'] = 2 ∧ levenshteinDistance ['a', 'b'] ['a'] = 1 := by
  decide

/-! ## Trimming lemmas -/

theorem trimLeft_idem (s : Str) : trimLeft (trimLeft s) = trimLeft s := by
  unfold trimLeft
  induction s with
  | nil => rfl
  | cons c s ih =>
    by_cases h : isJsSpace c = true
    · simpa [List.dropWhile_cons, h] using ih
    · simp [List.dropWhile_cons, h]

theorem trimRight_eq_nil_iff (s : Str) : trimRight s = [] ↔ ∀ c ∈ s, isJsSpace c = true := by
  induction s with
  | nil => simp [trimRight]
  | cons c s ih =>
    cases h : trimRight s with
    | nil =>
      by_cases hc : isJsSpace c = true
      · simp only [trimRight, h, hc, if_true]
        simp only [List.mem_cons, true_iff]
        intro x hx
        rcases hx with hx | hx
        · subst hx; exact hc
        · exact (ih.mp h) x hx
      · simp only [trimRight, h, hc, if_false]
        simp only [List.mem_cons]
        constructor
        · intro habs; exact absurd habs (by simp)
        · intro hall; exact absurd (hall c (Or.inl rfl)) hc
    | cons d t =>
      simp only [trimRight, h]
      constructor
      · intro habs; exact absurd habs (by simp)
      · intro hall
        have : trimRight s = [] := (ih.mpr (fun x hx => hall x (List.mem_cons_of_mem c hx)))
        rw [this] at h
        exact absurd h (by simp)

theorem trimRight_nil : trimRight [] = [] := rfl

theorem trimRight_cons (c : Char) (s : Str) :
    trimRight (c :: s) =
      match trimRight s with
      | [] => if isJsSpace c then [] else [c]
      | t => c :: t := rfl

theorem trimRight_idem (s : Str) : trimRight (trimRight s) = trimRight s := by
  induction s with
  | nil => rfl
  | cons c s ih =>
    cases h : trimRight s with
    | nil =>
      by_cases hc : isJsSpace c = true
      · simp [trimRight_cons, h, hc, trimRight_nil]
      · simp [trimRight_cons, h, hc, trimRight_nil]
    | cons d t =>
      rw [trimRight_cons, h]
      show trimRight (c :: d :: t) = c :: d :: t
      rw [trimRight_cons]
      have : trimRight (d :: t) = d :: t := by rw [← h, ih, h]
      rw [this]

theorem trimLeft_trimRight_comm (s : Str) :
    trimLeft (trimRight s) = trimRight (trimLeft s) := by
  induction s with
  | nil => rfl
  | cons c s ih =>
    by_cases hc : isJsSpace c = true
    · have hl : trimLeft (c :: s) = trimLeft s := by simp [trimLeft, List.dropWhile_cons, hc]
      cases h : trimRight s with
      | nil =>
        have h1 : trimRight (c :: s) = [] := by simp [trimRight, h, hc]
        have h2 : trimLeft s = [] := by
          have := (trimRight_eq_nil_iff s).mp h
          simpa [trimLeft, List.dropWhile_eq_nil_iff] using this
        rw [h1, hl, h2]
        rfl
      | cons d t =>
        have h1 : trimRight (c :: s) = c :: d :: t := by
          rw [trimRight]; rw [h]
        rw [h1, hl, ← ih, h]
        simp [trimLeft, List.dropWhile_cons, hc]
    · have hl : trimLeft (c :: s) = c :: s := by simp [trimLeft, List.dropWhile_cons, hc]
      rw [hl]
      cases h : trimRight s with
      | nil =>
        have h1 : trimRight (c :: s) = [c] := by simp [trimRight, h, hc]
        rw [h1]
        have : trimRight (c :: s) = trimRight (c :: s) := rfl
        simp [trimLeft, List.dropWhile_cons, hc, trimRight, h]
      | cons d t =>
        have h1 : trimRight (c :: s) = c :: d :: t := by
          rw [trimRight]; rw [h]
        rw [h1]
        simp [trimLeft, List.dropWhile_cons, hc, trimRight, h]

theorem trim_idem (s : Str) : trim (trim s) = trim s := by
  unfold trim
  rw [trimLeft_trimRight_comm (trimLeft s), trimRight_idem, trimLeft_idem]

theorem trimRight_subset (s : Str) : ∀ c ∈ trimRight s, c ∈ s := by
  induction s with
  | nil => intro c hc; exact absurd hc (by simp [trimRight])
  | cons a s ih =>
    intro c hc
    cases h : trimRight s with
    | nil =>
      by_cases ha : isJsSpace a = true
      · rw [trimRight, h, if_pos ha] at hc; exact absurd hc (by simp)
      · rw [trimRight, h, if_neg ha] at hc
        simp only [List.mem_singleton] at hc
        subst hc; exact List.mem_cons_self _ _
    | cons d t =>
      rw [trimRight_cons, h] at hc
      have hdt : c = a ∨ c ∈ trimRight s := by
        rw [h]
        exact List.mem_cons.mp hc
      rcases hdt with h1 | h1
      · subst h1; exact List.mem_cons_self _ _
      · exact List.mem_cons_of_mem _ (ih c h1)

theorem trim_subset (s : Str) : ∀ c ∈ trim s, c ∈ s := by
  intro c hc
  have h1 : c ∈ trimLeft s := trimRight_subset _ c hc
  exact List.dropWhile_sublist isJsSpace |>.subset h1

/-- Stripping marks leaves nothing that `stripMarks` would remove, even
after a further trim. -/
theorem stripMarks_trim_stripMarks (s : Str) :
    stripMarks (trim (stripMarks s)) = trim (stripMarks s) := by
  rw [stripMarks, List.filter_eq_self]
  intro c hc
  have h1 : c ∈ stripMarks s := trim_subset _ c hc
  rw [stripMarks] at h1
  have h2 := List.of_mem_filter h1
  exact h2

/-- C9: `normalizeString` is idempotent. The concrete steps (the
combining-mark strip and the trim) are proved outright; the four
hypotheses state standard facts about the Unicode operations that the
development is parametric in: lowercasing and NFD commute with trimming
(no case mapping or canonical decomposition produces or consumes
whitespace, and canonical reordering never moves a mark across a
whitespace starter), and on a string that is already lowercased, NFD-
decomposed and mark-stripped both act as the identity (case mappings of
lowercase output are fixed points, and removing combining marks from an
NFD string keeps it fully decomposed and canonically ordered). -/
theorem normalizeString_idempotent (U : UnicodeOps)
    (hlower_trim : ∀ t, U.lower (trim t) = trim (U.lower t))
    (hnfd_trim : ∀ t, U.nfd (trim t) = trim (U.nfd t))
    (hlower_fix : ∀ t, U.lower (stripMarks (U.nfd (U.lower t))) = stripMarks (U.nfd (U.lower t)))
    (hnfd_fix : ∀ t, U.nfd (stripMarks (U.nfd (U.lower t))) = stripMarks (U.nfd (U.lower t)))
    (s : Str) :
    normalizeString U (normalizeString U s) = normalizeString U s := by
  unfold normalizeString
  rw [hlower_trim, hlower_fix s, hnfd_trim, hnfd_fix s, stripMarks_trim_stripMarks, trim_idem]

/-- Witness for C9: the hypotheses hold of the trivial Unicode operations,
and the theorem evaluates on a concrete string. -/
theorem normalizeString_idempotent_witness :
    normalizeString idUnicode (normalizeString idUnicode ((" Bread ").toList)) =
      normalizeString idUnicode ((" Bread ").toList) :=
  normalizeString_idempotent idUnicode (fun _ => rfl) (fun _ => rfl) (fun _ => rfl)
    (fun _ => rfl) ((" Bread ").toList)

/-! ## C3, C10: the match locator -/

theorem findAllMatchesF_nil_pat (text : Str) :
    ∀ fuel startIndex acc, findAllMatchesF text [] fuel startIndex acc = none := by
  intro fuel
  induction fuel with
  | zero => intro s acc; rfl
  | succ fuel ih =>
    intro s acc
    have h : jsIndexOf text [] s = some (min s text.length) := by
      simp [jsIndexOf]
    simp only [findAllMatchesF, h]
    exact ih (min s text.length + 1) (acc ++ [(min s text.length, min s text.length + 0)])

/-- C3: on a query that is blank (normalizes to the empty string) the
route's `findMatches` never returns: `indexOf` with an empty needle yields
`min start len`, never `-1`, so `findAllMatches` recurses forever. In the
fuel model the computation yields `none` for every fuel, i.e. it does not
terminate — the specified behavior (return the empty list) never happens. -/
theorem findMatches_blank_query_diverges (U : UnicodeOps) (text query : Str)
    (h : normalizeString U query = []) (fuel : Nat) :
    findMatchesF U text query fuel = none := by
  rw [findMatchesF, h]
  exact findAllMatchesF_nil_pat _ fuel 0 []

/-- Witness for C3: the whitespace-only query `" "` normalizes to the
empty string, and on the text `"ab"` the locator exhausts any fuel. -/
theorem findMatches_blank_query_diverges_witness :
    normalizeString idUnicode [' '] = [] ∧
      findMatchesF idUnicode ['a', 'b'] [' '] 100 = none :=
  ⟨by decide, findMatches_blank_query_diverges idUnicode ['a', 'b'] [' '] (by decide) 100⟩

theorem occursAt_le (text pat : Str) (p : Nat) (hpat : pat ≠ [])
    (h : occursAt text pat p = true) : p + pat.length ≤ text.length := by
  rw [occursAt] at h
  have h1 : (text.drop p).take pat.length = pat := by simpa using h
  have h2 := congrArg List.length h1
  simp only [List.length_take, List.length_drop] at h2
  have h3 : pat.length ≠ 0 := by simpa using hpat
  omega

theorem jsIndexOf_some_facts (text pat : Str) (start p : Nat) (hpat : pat ≠ [])
    (h : jsIndexOf text pat start = some p) :
    start ≤ p ∧ p + pat.length ≤ text.length := by
  rw [jsIndexOf] at h
  have hemp : ¬(pat.isEmpty = true) := by simp [hpat]
  rw [if_neg hemp] at h
  have h1 := List.find?_some h
  simp only [Bool.and_eq_true, decide_eq_true_eq] at h1
  exact ⟨h1.1, occursAt_le text pat p hpat h1.2⟩

theorem findAllMatchesF_invariant (text pat : Str) (hpat : pat ≠ []) :
    ∀ fuel startIndex acc spans,
      (∀ m ∈ acc, m.2 = m.1 + pat.length ∧ m.2 ≤ text.length) →
      List.Pairwise (fun m₁ m₂ => m₁.1 < m₂.1) acc →
      (∀ m ∈ acc, m.1 < startIndex) →
      findAllMatchesF text pat fuel startIndex acc = some spans →
      (∀ m ∈ spans, m.2 = m.1 + pat.length ∧ m.2 ≤ text.length) ∧
        List.Pairwise (fun m₁ m₂ => m₁.1 < m₂.1) spans := by
  intro fuel
  induction fuel with
  | zero =>
    intro s acc spans _ _ _ habs
    exact absurd habs (by simp [findAllMatchesF])
  | succ fuel ih =>
    intro s acc spans hbounds hpw hlt heq
    cases hidx : jsIndexOf text pat s with
    | none =>
      simp only [findAllMatchesF, hidx, Option.some.injEq] at heq
      subst heq
      exact ⟨hbounds, hpw⟩
    | some p =>
      simp only [findAllMatchesF, hidx] at heq
      obtain ⟨hsp, hbound⟩ := jsIndexOf_some_facts text pat s p hpat hidx
      apply ih (p + 1) (acc ++ [(p, p + pat.length)]) spans ?_ ?_ ?_ heq
      · intro m hm
        rcases List.mem_append.mp hm with hm | hm
        · exact hbounds m hm
        · simp only [List.mem_singleton] at hm
          subst hm
          exact ⟨rfl, hbound⟩
      · rw [List.pairwise_append]
        refine ⟨hpw, by simp, ?_⟩
        intro m hm m' hm'
        simp only [List.mem_singleton] at hm'
        subst hm'
        exact lt_of_lt_of_le (hlt m hm) hsp
      · intro m hm
        rcases List.mem_append.mp hm with hm | hm
        · exact Nat.lt_succ_of_lt (lt_of_lt_of_le (hlt m hm) hsp)
        · simp only [List.mem_singleton] at hm
          subst hm
          exact Nat.lt_succ_self p

/-- C10: for a query whose normalized form is non-empty, every list of
spans `findMatches` returns has each span `(start, end)` with
`end = start + |normalized query|` and `end ≤ |normalized text|`, and the
start positions strictly increase along the list (starts are naturals, so
`0 ≤ start` holds by typing). -/
theorem findMatches_span_invariants (U : UnicodeOps) (text query : Str) (fuel : Nat)
    (spans : List (Nat × Nat)) (hq : normalizeString U query ≠ [])
    (h : findMatchesF U text query fuel = some spans) :
    List.Pairwise (fun m₁ m₂ => m₁.1 < m₂.1) spans ∧
      ∀ m ∈ spans, m.2 = m.1 + (normalizeString U query).length ∧
        m.2 ≤ (normalizeString U text).length := by
  rw [findMatchesF] at h
  obtain ⟨h1, h2⟩ :=
    findAllMatchesF_invariant (normalizeString U text) (normalizeString U query) hq fuel 0
      [] spans (by simp) (by simp) (by simp) h
  exact ⟨h2, h1⟩

/-- Witness for C10: the locator on text `"abab"` and query `"ab"` returns
the spans `[(0, 2), (2, 4)]`, which satisfy all the stated invariants. -/
theorem findMatches_span_invariants_witness :
    List.Pairwise (fun m₁ m₂ : Nat × Nat => m₁.1 < m₂.1) [(0, 2), (2, 4)] ∧
      ∀ m ∈ [(0, 2), (2, 4)],
        m.2 = m.1 + (normalizeString idUnicode (("ab").toList)).length ∧
          m.2 ≤ (normalizeString idUnicode (("abab").toList)).length :=
  findMatches_span_invariants idUnicode (("abab").toList) (("ab").toList) 10
    [(0, 2), (2, 4)] (by decide) (by decide)

/-! ## Stable-sort lemmas for the score ordering -/

theorem insertByScoreDesc_perm (a : SearchResult) (l : List SearchResult) :
    (insertByScoreDesc a l).Perm (a :: l) := by
  induction l with
  | nil => exact List.Perm.refl _
  | cons b l ih =>
    rw [insertByScoreDesc]
    by_cases h : a.score < b.score
    · rw [if_pos h]
      exact (ih.cons b).trans (List.Perm.swap a b l)
    · rw [if_neg h]

theorem sortByScoreDesc_perm (l : List SearchResult) : (sortByScoreDesc l).Perm l := by
  induction l with
  | nil => exact List.Perm.refl _
  | cons a l ih =>
    have h : sortByScoreDesc (a :: l) = insertByScoreDesc a (sortByScoreDesc l) := rfl
    rw [h]
    exact (insertByScoreDesc_perm a _).trans (ih.cons a)

theorem insertByScoreDesc_sorted (a : SearchResult) (l : List SearchResult)
    (h : List.Pairwise (fun r₁ r₂ => r₂.score ≤ r₁.score) l) :
    List.Pairwise (fun r₁ r₂ => r₂.score ≤ r₁.score) (insertByScoreDesc a l) := by
  induction l with
  | nil => simp [insertByScoreDesc]
  | cons b l ih =>
    rw [insertByScoreDesc]
    rcases List.pairwise_cons.mp h with ⟨hb, hl⟩
    by_cases hc : a.score < b.score
    · rw [if_pos hc, List.pairwise_cons]
      constructor
      · intro x hx
        rcases List.mem_cons.mp ((insertByScoreDesc_perm a l).mem_iff.mp hx) with rfl | hx'
        · exact le_of_lt hc
        · exact hb x hx'
      · exact ih hl
    · rw [if_neg hc, List.pairwise_cons]
      constructor
      · intro x hx
        rcases List.mem_cons.mp hx with rfl | hx'
        · exact Nat.le_of_not_lt hc
        · exact le_trans (hb x hx') (Nat.le_of_not_lt hc)
      · exact h

theorem sortByScoreDesc_sorted (l : List SearchResult) :
    List.Pairwise (fun r₁ r₂ => r₂.score ≤ r₁.score) (sortByScoreDesc l) := by
  induction l with
  | nil => simp [sortByScoreDesc]
  | cons a l ih => exact insertByScoreDesc_sorted a _ ih

theorem insertByScoreDesc_filter (a : SearchResult) (l : List SearchResult) (s : Nat) :
    (insertByScoreDesc a l).filter (fun r => r.score == s) =
      if a.score == s then a :: l.filter (fun r => r.score == s)
      else l.filter (fun r => r.score == s) := by
  induction l with
  | nil =>
    by_cases has : (a.score == s) = true
    · simp [insertByScoreDesc, List.filter, has]
    · simp [insertByScoreDesc, List.filter, has]
  | cons b l ih =>
    rw [insertByScoreDesc]
    by_cases hc : a.score < b.score
    · rw [if_pos hc]
      by_cases hbs : (b.score == s) = true
      · have hbs' : b.score = s := by simpa using hbs
        have has : ¬(a.score == s) = true := by
          simp only [beq_iff_eq]
          omega
        simp [List.filter_cons, hbs, has, ih]
      · simp [List.filter_cons, hbs, ih]
    · rw [if_neg hc]
      by_cases has : (a.score == s) = true
      · simp [List.filter_cons, has]
      · simp [List.filter_cons, has]

theorem sortByScoreDesc_filter (l : List SearchResult) (s : Nat) :
    (sortByScoreDesc l).filter (fun r => r.score == s) =
      l.filter (fun r => r.score == s) := by
  induction l with
  | nil => rfl
  | cons a l ih =>
    have h : sortByScoreDesc (a :: l) = insertByScoreDesc a (sortByScoreDesc l) := rfl
    rw [h, insertByScoreDesc_filter]
    by_cases has : (a.score == s) = true
    · rw [if_pos has, ih, List.filter_cons, if_pos (by exact has)]
    · rw [if_neg has, ih, List.filter_cons, if_neg (by exact has)]

/-- On a non-blank query the pipeline takes its scoring branch. -/
theorem searchResults_eq_of_ne (U : UnicodeOps) (catalog : List BakeryProduct)
    (params : ParsedSearchParams) (hq : trim params.q ≠ []) :
    searchResults U catalog params =
      (sortByScoreDesc
        (((applyFilters catalog params).map (fun product =>
          SearchResult.mk product (calculateRelevanceScore U product params.q))).filter
          (fun result => 0 < result.score))).map (fun r => r.product) := by
  rw [searchResults, if_pos hq]

/-- Every scored result the sorter sees carries the score of its own
product. -/
theorem sorted_score_inv (U : UnicodeOps) (catalog : List BakeryProduct)
    (params : ParsedSearchParams) (r : SearchResult)
    (hr : r ∈ sortByScoreDesc
      (((applyFilters catalog params).map (fun product =>
        SearchResult.mk product (calculateRelevanceScore U product params.q))).filter
        (fun result => 0 < result.score))) :
    r.score = calculateRelevanceScore U r.product params.q ∧ 0 < r.score := by
  have hr1 := (sortByScoreDesc_perm _).mem_iff.mp hr
  have hpos := List.of_mem_filter hr1
  have hr2 := List.mem_of_mem_filter hr1
  obtain ⟨p, _, rfl⟩ := List.mem_map.mp hr2
  exact ⟨rfl, by simpa using hpos⟩

/-- C4: on a non-blank query the output is sorted by non-increasing
relevance score, and products of equal score keep the relative order they
had in the filtered set (stable tie-break). -/
theorem searchResults_sorted_stable (U : UnicodeOps) (catalog : List BakeryProduct)
    (params : ParsedSearchParams) (hq : trim params.q ≠ []) :
    List.Pairwise
      (fun p₁ p₂ =>
        calculateRelevanceScore U p₂ params.q ≤ calculateRelevanceScore U p₁ params.q)
      (searchResults U catalog params) ∧
    ∀ s : Nat, 0 < s →
      (searchResults U catalog params).filter
          (fun p => calculateRelevanceScore U p params.q == s) =
        (applyFilters catalog params).filter
          (fun p => calculateRelevanceScore U p params.q == s) := by
  constructor
  · rw [searchResults_eq_of_ne U catalog params hq, List.pairwise_map]
    refine List.Pairwise.imp_of_mem ?_ (sortByScoreDesc_sorted _)
    intro r₁ r₂ h₁ h₂ hle
    rw [← (sorted_score_inv U catalog params r₁ h₁).1,
      ← (sorted_score_inv U catalog params r₂ h₂).1]
    exact hle
  · intro s hs
    rw [searchResults_eq_of_ne U catalog params hq, List.filter_map]
    have hstep1 :
        (sortByScoreDesc
          (((applyFilters catalog params).map (fun product =>
            SearchResult.mk product (calculateRelevanceScore U product params.q))).filter
            (fun result => 0 < result.score))).filter
          ((fun p => calculateRelevanceScore U p params.q == s) ∘ (fun r => r.product)) =
        (sortByScoreDesc
          (((applyFilters catalog params).map (fun product =>
            SearchResult.mk product (calculateRelevanceScore U product params.q))).filter
            (fun result => 0 < result.score))).filter (fun r => r.score == s) := by
      refine List.filter_congr ?_
      intro r hr
      simp only [Function.comp]
      rw [(sorted_score_inv U catalog params r hr).1]
    rw [hstep1, sortByScoreDesc_filter, List.filter_filter]
    have hstep2 :
        ((applyFilters catalog params).map (fun product =>
          SearchResult.mk product (calculateRelevanceScore U product params.q))).filter
          (fun r => (r.score == s) && decide (0 < r.score)) =
        ((applyFilters catalog params).map (fun product =>
          SearchResult.mk product (calculateRelevanceScore U product params.q))).filter
          (fun r => r.score == s) := by
      refine List.filter_congr ?_
      intro r _
      by_cases hrs : (r.score == s) = true
      · have : r.score = s := by simpa using hrs
        simp [hrs, this, hs]
      · simp [hrs]
    rw [hstep2, List.filter_map, List.map_map]
    have hid : ((fun r : SearchResult => r.product) ∘ fun product =>
        SearchResult.mk product (calculateRelevanceScore U product params.q)) = id := rfl
    rw [hid, List.map_id]
    rfl

/-- Witness for C4: a concrete three-product catalog under query
`"bread"`. -/
theorem searchResults_sorted_stable_witness :
    List.Pairwise
      (fun p₁ p₂ =>
        calculateRelevanceScore idUnicode p₂ sampleParams.q ≤
          calculateRelevanceScore idUnicode p₁ sampleParams.q)
      (searchResults idUnicode sampleCatalog sampleParams) ∧
    ∀ s : Nat, 0 < s →
      (searchResults idUnicode sampleCatalog sampleParams).filter
          (fun p => calculateRelevanceScore idUnicode p sampleParams.q == s) =
        (applyFilters sampleCatalog sampleParams).filter
          (fun p => calculateRelevanceScore idUnicode p sampleParams.q == s) :=
  searchResults_sorted_stable idUnicode sampleCatalog sampleParams (by decide)

/-- C5: on a non-blank query every product of the output scores strictly
positively; zero-scored products are discarded. -/
theorem searchResults_positive_score (U : UnicodeOps) (catalog : List BakeryProduct)
    (params : ParsedSearchParams) (hq : trim params.q ≠ []) :
    ∀ p ∈ searchResults U catalog params, 0 < calculateRelevanceScore U p params.q := by
  intro p hp
  rw [searchResults_eq_of_ne U catalog params hq] at hp
  obtain ⟨r, hr, rfl⟩ := List.mem_map.mp hp
  obtain ⟨hscore, hpos⟩ := sorted_score_inv U catalog params r hr
  rw [← hscore]
  exact hpos

/-- Witness for C5: the product named `"bread"` appears in the output of
the concrete search and indeed scores positively. -/
theorem searchResults_positive_score_witness :
    0 < calculateRelevanceScore idUnicode sampleBread sampleParams.q :=
  searchResults_positive_score idUnicode sampleCatalog sampleParams (by decide)
    sampleBread (by decide)

/-! ## C6: the filter predicate -/

theorem filterPred_iff (params : ParsedSearchParams) (p : BakeryProduct) :
    filterPred params p = true ↔
      (params.categories ≠ [] → categoryName p.category ∈ params.categories) ∧
        params.minPrice ≤ p.price ∧ p.price ≤ params.maxPrice ∧
        params.minRating ≤ p.rating ∧
        (∀ b, params.inStock = some b → p.inStock = b) ∧
        (∀ b, params.organic = some b → ∃ pc, p.extra = CategoryFields.flour pc b) := by
  unfold filterPred
  split_ifs with h1 h2 h3 h4
  · constructor
    · intro habs; exact absurd habs (by simp)
    · rintro ⟨hc, -⟩
      exact absurd (hc (List.ne_nil_of_length_pos h1.1)) h1.2
  · constructor
    · intro habs; exact absurd habs (by simp)
    · rintro ⟨-, hmin, hmax, -⟩
      rcases h2 with h2 | h2
      · exact absurd h2 (not_lt.mpr hmin)
      · exact absurd h2 (not_lt.mpr hmax)
  · constructor
    · intro habs; exact absurd habs (by simp)
    · rintro ⟨-, -, -, hrat, -⟩
      exact absurd h3 (not_lt.mpr hrat)
  · constructor
    · intro habs; exact absurd habs (by simp)
    · rintro ⟨-, -, -, -, hst, -⟩
      cases hin : params.inStock with
      | none => rw [hin] at h4; exact absurd h4 (by simp [stockPass])
      | some b =>
        rw [hin] at h4
        have hb : p.inStock = b := hst b hin
        simp [stockPass, hb] at h4
  · constructor
    · intro ho
      refine ⟨?_, ?_, ?_, ?_, ?_, ?_⟩
      · intro hne
        by_contra hmem
        exact h1 ⟨List.length_pos.mpr hne, hmem⟩
      · by_contra hp
        exact h2 (Or.inl (not_le.mp hp))
      · by_contra hp
        exact h2 (Or.inr (not_le.mp hp))
      · exact not_lt.mp h3
      · intro b hb
        rw [hb] at h4
        by_contra hne
        exact h4 (by simp [stockPass, hne])
      · intro b hb
        rw [hb] at ho
        cases hex : p.extra with
        | flour pc org =>
          rw [hex] at ho
          simp only [organicPass, beq_iff_eq] at ho
          exact ⟨pc, by rw [ho]⟩
        | banneton => rw [hex] at ho; exact absurd ho (by simp [organicPass])
        | oven fs => rw [hex] at ho; exact absurd ho (by simp [organicPass])
    · rintro ⟨-, -, -, -, -, horg⟩
      cases hin : params.organic with
      | none => rfl
      | some b =>
        obtain ⟨pc, hpc⟩ := horg b hin
        rw [hpc]
        simp [organicPass]

/-- C6: a product is in the Filter Engine's output iff it is in the catalog
and passes all five conditions (category membership when categories are
selected, price bounds, minimum rating, stock flag when set, and — when the
organic filter is set — being a flour product with the matching organic
flag, every non-flour product being excluded); the output is a sublist of
the catalog, so relative order is preserved. -/
theorem applyFilters_spec (catalog : List BakeryProduct) (params : ParsedSearchParams) :
    (applyFilters catalog params).Sublist catalog ∧
    ∀ p, p ∈ applyFilters catalog params ↔
      p ∈ catalog ∧
      ((params.categories ≠ [] → categoryName p.category ∈ params.categories) ∧
        params.minPrice ≤ p.price ∧ p.price ≤ params.maxPrice ∧
        params.minRating ≤ p.rating ∧
        (∀ b, params.inStock = some b → p.inStock = b) ∧
        (∀ b, params.organic = some b → ∃ pc, p.extra = CategoryFields.flour pc b)) := by
  constructor
  · exact List.filter_sublist _
  · intro p
    rw [applyFilters, List.mem_filter, filterPred_iff]

/-! ## C7: the flour protein bonus -/

/-- C7: for a flour product and a query in which the regex
`/(\d+)%?\s*protein/i` finds a match with parsed digit group `k`, the flour
category bonus of the relevance score is 10 when
`|proteinContent − k| ≤ 1` and 0 otherwise. -/
theorem flourScore_protein_bonus (p : BakeryProduct) (query : Str) (pc : ℚ) (org : Bool)
    (k : Nat) (hp : p.extra = CategoryFields.flour pc org)
    (hm : proteinSearch query = some k) :
    flourScore p query = if |pc - (k : ℚ)| ≤ 1 then 10 else 0 := by
  rw [flourScore, hp, hm]

/-- Witness for C7: the spec's own scenario — query `"12% protein"` against
protein content 11.5 earns the 10-point bonus (|11.5 − 12| = 0.5 ≤ 1). -/
theorem flourScore_protein_bonus_witness :
    proteinSearch (("12% protein").toList) = some 12 ∧
      flourScore sampleFlour (("12% protein").toList) = 10 := by
  constructor
  · decide
  · rw [flourScore_protein_bonus sampleFlour (("12% protein").toList) proteinSample true 12
      rfl (by decide)]
    rw [if_pos]
    rw [proteinSample, Rat.mk'_eq_divInt, abs_le]
    constructor <;> norm_num [Rat.divInt_eq_div]

/-! ## C8: the logic mode is dead -/

/-- C8: the search pipeline's output is independent of `logicMode`: two
parameter records that agree on every other field produce identical
filtered sets and identical final outputs — neither `applyFilters` nor any
later stage reads the mode. -/
theorem searchResults_logicMode_noop (U : UnicodeOps) (catalog : List BakeryProduct)
    (q : Str) (cats : List Str) (mn mx mr : ℚ) (is og : Option Bool)
    (m₁ m₂ : LogicMode) :
    searchResults U catalog ⟨q, cats, mn, mx, mr, is, og, m₁⟩ =
        searchResults U catalog ⟨q, cats, mn, mx, mr, is, og, m₂⟩ ∧
      applyFilters catalog ⟨q, cats, mn, mx, mr, is, og, m₁⟩ =
        applyFilters catalog ⟨q, cats, mn, mx, mr, is, og, m₂⟩ :=
  ⟨rfl, rfl⟩

end Bakery
